import Mathlib

/-!
Verification development for the poe2-mobalytics-translator content scripts.

The repository is a browser userscript: a `TranslationConfig` holding three
dictionaries (`exactMap`, `templateMap`, `fixedTextMap`) and a `Translator`
whose strategies rewrite DOM text in place, guarded by WeakSets of
already-translated elements (`translatedSet`) and text nodes
(`translatedTextNodes`).

We embed the text-level behaviour of the strategies shallowly:

* dictionaries are association lists; JS object lookup is first-match and a
  value is "present" only when truthy (the empty string is falsy);
* a text node is its `nodeValue` plus its membership flag in
  `translatedTextNodes`;
* for the per-strategy properties an element is a flat record of its text,
  its optional `alt` attribute, its membership in the various selector
  scopes (all static: selectors match on structure and attributes, not on
  the text being rewritten), and its membership flag in `translatedSet`;
* for the whole-pass properties an element instead owns its list of
  text-node children: `textContent` reads concatenate their values, a
  `textContent` write replaces them with one fresh unmarked node, and the
  fallback walk rewrites `nodeValue` of surviving nodes in place — so a
  node-level write is visible to a later element-level read, the aliasing
  on which the pass's (non-)idempotence turns;
* the regular expressions compiled by `compileTemplates` are embedded
  structurally (the source escapes every metacharacter of the skeleton, so
  the skeleton is literal text; `#` becomes the capture group
  `([\d.\-()]+)`; the whole pattern is `^([+\-]?)skeleton$` with the `i`
  flag), with a faithful greedy backtracking matcher;
* the word-boundary substitution `txt.replace(new RegExp('\\b'+en+'\\b','g'), zh)`
  of `translateFixedText` is embedded as a left-to-right scan over the
  original characters (JS `\w` is exactly `[A-Za-z0-9_]`); the replacement
  string is inserted literally (no dictionary value in this program uses
  `$`-escapes);
* whether the `RegExp` constructor accepts a pattern spliced from an
  arbitrary dictionary key is not decided by the model: the exception
  model takes constructor acceptance as an oracle parameter, instantiated
  at concrete inputs with a check that refutes acceptance soundly
  (unbalanced groups and the like are genuine `SyntaxError`s).

All definitions are structurally recursive (fuel is used where the source
loops by an amount that is not a structural argument), so closed instances
evaluate by `rfl`/`decide`.
-/

namespace Poe2Translator

/-- Dictionaries (`exactMap`, `templateMap`, `fixedTextMap`) as association
lists in declaration order, matching `Object.entries` iteration order. -/
abbrev Dict := List (String × String)

/-- JS truthy lookup `map[key]`: first matching entry, and an entry whose
value is the empty string is falsy, hence treated as absent by every
`if (map[key])`-style guard in the source. -/
def lookupTruthy (m : Dict) (k : String) : Option String :=
  match m.lookup k with
  | some v => if v = "" then none else some v
  | none => none

/-- JS `String.prototype.trim`: drop leading and trailing whitespace. -/
def trimL (cs : List Char) : List Char :=
  ((cs.dropWhile Char.isWhitespace).reverse.dropWhile Char.isWhitespace).reverse

/-- String form of `trimL`. -/
def strTrim (s : String) : String :=
  String.mk (trimL s.toList)

/-- Checks whether `sub` occurs as a contiguous run inside `s`. -/
def listInfix (sub : List Char) : List Char → Bool
  | [] => sub.isEmpty
  | c :: cs => sub.isPrefixOf (c :: cs) || listInfix sub cs

/-- JS `String.prototype.includes`. -/
def strIncludes (s sub : String) : Bool :=
  listInfix sub.toList s.toList

/-! ## Template compiler (`compileTemplates`)

The source builds, for a template string `tpl`,
`new RegExp('^([+\\-]?)' + escaped.replace(/#/g, '([\\d.\\-()]+)') + '$', 'i')`
where `escaped` backslash-escapes every regex metacharacter of `tpl`.
Escaping never touches or produces `#`, so the compiled pattern is the
alternation-free sequence: optional sign capture, then the literal pieces of
`tpl` split on `#` interleaved with numeric capture groups, anchored at both
ends and case-insensitive on the literal pieces. -/

/-- A token of a compiled template pattern: a literal (case-insensitive)
piece of the skeleton, or the numeric capture group `([\d.\-()]+)`. -/
inductive Tok where
  | lit : String → Tok
  | num : Tok
deriving DecidableEq

/-- Splits the template on `#`, producing the token sequence of the
compiled pattern body. `cur` accumulates the current literal piece in
reverse. -/
def toksAux (cur : List Char) : List Char → List Tok
  | [] => [Tok.lit (String.mk cur.reverse)]
  | c :: cs =>
    if c = '#' then Tok.lit (String.mk cur.reverse) :: Tok.num :: toksAux [] cs
    else toksAux (c :: cur) cs

/-- Token sequence of the compiled pattern for template `tpl`. -/
def toksOfTemplate (tpl : String) : List Tok :=
  toksAux [] tpl.toList

/-- A compiled template entry: `{ regex, translation }`. -/
structure CTempl where
  toks : List Tok
  translation : String
deriving DecidableEq

/-- Model of `compileTemplates` on one `templateMap` entry. -/
def compileOne (tpl trans : String) : CTempl :=
  ⟨toksOfTemplate tpl, trans⟩

/-- Model of `Translator.compileTemplates`. -/
def compileTemplates (tm : Dict) : List CTempl :=
  tm.map (fun p => compileOne p.1 p.2)

/-- Case-insensitive character equality (the compiled regex carries the `i`
flag; inputs in this program are ASCII, where `Char.toLower` agrees with JS
case folding). -/
def lcEq (a b : Char) : Bool :=
  a.toLower == b.toLower

/-- Strips a case-insensitive literal prefix, returning the remainder. -/
def stripPrefixCI : List Char → List Char → Option (List Char)
  | [], cs => some cs
  | _ :: _, [] => none
  | p :: ps, c :: cs => if lcEq p c then stripPrefixCI ps cs else none

/-- A character matched by the numeric capture group `[\d.\-()]`. -/
def numChar (c : Char) : Bool :=
  c.isDigit || c == '.' || c == '-' || c == '(' || c == ')'

/-- All ways the greedy group `([\d.\-()]+)` can split off a nonempty
capture at the front of `cs`, longest capture first — exactly the order a
backtracking regex engine tries them. -/
def numSplits (cs : List Char) : List (String × List Char) :=
  let m := cs.takeWhile numChar
  let rest := cs.drop m.length
  (List.range m.length).map (fun k =>
    (String.mk (m.take (m.length - k)), m.drop (m.length - k) ++ rest))

/-- Backtracking matcher for the pattern body against the whole input,
returning the numeric captures in order. Each recursive call consumes one
token, so `fuel = number of tokens + 1` always suffices. -/
def matchToksF : Nat → List Tok → List Char → Option (List String)
  | 0, _, _ => none
  | _ + 1, [], cs => if cs.isEmpty then some [] else none
  | fuel + 1, Tok.lit l :: ts, cs =>
    match stripPrefixCI l.toList cs with
    | some rest => matchToksF fuel ts rest
    | none => none
  | fuel + 1, Tok.num :: ts, cs =>
    (numSplits cs).findSome? (fun p =>
      (matchToksF fuel ts p.2).map (fun caps => p.1 :: caps))

/-- Anchored match of the pattern body (no sign group yet). -/
def matchToks (ts : List Tok) (cs : List Char) : Option (List String) :=
  matchToksF (ts.length + 1) ts cs

/-- Full match of the compiled pattern `^([+\-]?)body$` against `s`:
returns the captured sign (possibly empty) and the numeric captures. The
optional sign group is greedy, so a leading sign is consumed first and
given back only if the rest then fails. -/
def templMatch (toks : List Tok) (s : String) : Option (String × List String) :=
  match s.toList with
  | [] => (matchToks toks []).map (fun caps => ("", caps))
  | c :: rest =>
    if c == '+' || c == '-' then
      match matchToks toks rest with
      | some caps => some (String.mk [c], caps)
      | none => (matchToks toks (c :: rest)).map (fun caps => ("", caps))
    else (matchToks toks (c :: rest)).map (fun caps => ("", caps))

/-- Whether the compiled matcher accepts `s`. -/
def templMatchB (ct : CTempl) (s : String) : Bool :=
  (templMatch ct.toks s).isSome

/-- JS `result.replace('#', v)`: replaces the first `#` (if any) of the
character list with `v`. -/
def replHashAux (v : List Char) : List Char → List Char
  | [] => []
  | c :: cs => if c = '#' then v ++ cs else c :: replHashAux v cs

/-- JS `s.replace('#', v)` with a plain-string pattern. -/
def replaceFirstHash (s v : String) : String :=
  String.mk (replHashAux v.toList s.toList)

/-- The reconstruction loop
`match.slice(2).forEach(val => result = result.replace('#', val))`. -/
def reconstruct (trans : String) (caps : List String) : String :=
  caps.foldl replaceFirstHash trans

/-- The matcher loop of `translateItemAttributes`: first compiled template
whose regex matches wins, producing `(match[1] || '') + result`. -/
def runTemplates (cts : List CTempl) (txt : String) : Option String :=
  match cts with
  | [] => none
  | ct :: rest =>
    match templMatch ct.toks txt with
    | some (sign, caps) => some (sign ++ reconstruct ct.translation caps)
    | none => runTemplates rest txt

/-! ## Word-boundary substitution (`translateFixedText`)

`txt.replace(new RegExp('\\b' + en + '\\b', 'g'), zh)` in `content.js`
replaces every whole-word occurrence of the literal key `en`. A JS word
character is exactly `[A-Za-z0-9_]`, and `\b` holds between two positions
whose word-character status differs (string ends count as non-word). The
global scan walks the original string left to right and resumes after each
matched span, so the boundary context is always a character of the original
string. -/

/-- JS `\w`: ASCII letters, digits and underscore. -/
def isWordChar (c : Char) : Bool :=
  c.isAlphanum || c == '_'

/-- Word-character status of an optional neighbouring character; the
out-of-string position is non-word. -/
def wordish : Option Char → Bool
  | none => false
  | some c => isWordChar c

/-- One global `\b en \b` scan. `prev` is the original character just
before the current position. On a boundary-delimited literal match the
replacement `zh` is emitted and the scan resumes after the matched span;
otherwise one character is copied. The source only calls this with
nonempty `en`, and each step consumes at least one character, so
`fuel = length + 1` suffices (the fuel-exhausted branch returns the
remaining input unchanged and is never reached). -/
def wbScanF (en zh : List Char) : Nat → Option Char → List Char → List Char
  | 0, _, cs => cs
  | _ + 1, _, [] => []
  | fuel + 1, prev, c :: cs =>
    if en.isPrefixOf (c :: cs)
        && (wordish prev != wordish en.head?)
        && (wordish ((c :: cs).drop en.length).head? != wordish en.getLast?)
    then zh ++ wbScanF en zh fuel en.getLast? ((c :: cs).drop en.length)
    else c :: wbScanF en zh fuel (some c) cs

/-- JS `s.replace(new RegExp('\\b' + en + '\\b', 'g'), zh)` for a literal,
nonempty key `en` (every `fixedTextMap` key in the shipped dictionaries is
a nonempty phrase; the empty-key pattern `\b\b` is out of scope and modelled
as a no-op). The replacement is inserted literally. -/
def wbReplace (en zh s : String) : String :=
  if en = "" then s
  else String.mk (wbScanF en.toList zh.toList (s.toList.length + 1) none s.toList)

/-- The entry loop of `translateFixedText`:
`for (const [en, zh] of Object.entries(fixedTextMap)) txt = txt.replace(...)`. -/
def applyFixedEntries (f : Dict) (txt : String) : String :=
  f.foldl (fun acc p => wbReplace p.1 p.2 acc) txt

/-! ## Element and text-node state

The strategies read and write only an element's text (or `alt` attribute)
and its membership in the WeakSets; which selector scopes an element
belongs to is decided by the page structure and never changes while text is
rewritten. We therefore embed an element as a flat record. -/

/-- Exact-translation mode of a selector-config entry: the default
`textContent` property, or an attribute (`alt` in the shipped config). -/
inductive Mode where
  | text : Mode
  | attr : Mode
deriving DecidableEq

/-- A DOM element as the strategies see it: its text, its optional `alt`
attribute, its `translatedSet` membership, and its static scope data — in
which selector-config passes `applyExactTranslation` visits it (with which
mode), and whether it is a `ul li`, a `p`/`span`/`li`, or inside
`[data-tippy-root]`. -/
structure ElState where
  text : String
  alt : Option String
  marked : Bool
  exactModes : List Mode
  isLi : Bool
  isPSL : Bool
  isTippy : Bool
deriving DecidableEq

/-- A text node as `translateFallback` sees it: its `nodeValue` and its
`translatedTextNodes` membership. -/
structure NodeState where
  value : String
  nmarked : Bool
deriving DecidableEq

/-! ## The strategies (content.js `Translator`, per element) -/

/-- `applyExactTranslation` on one element (content.js lines 80–94): skip
if marked; trim the property value; on a truthy exact-map hit whose
translation is not already contained in the value, write
`"{translation} ({value})"` and mark. -/
def applyExactEl (m : Dict) (md : Mode) (st : ElState) : ElState :=
  if st.marked then st
  else
    match md with
    | Mode.text =>
      if strTrim st.text = "" then st
      else
        match lookupTruthy m (strTrim st.text) with
        | none => st
        | some tr =>
          if strIncludes (strTrim st.text) tr then st
          else { st with text := tr ++ " (" ++ strTrim st.text ++ ")", marked := true }
    | Mode.attr =>
      match st.alt with
      | none => st
      | some a =>
        if strTrim a = "" then st
        else
          match lookupTruthy m (strTrim a) with
          | none => st
          | some tr =>
            if strIncludes (strTrim a) tr then st
            else { st with alt := some (tr ++ " (" ++ strTrim a ++ ")"), marked := true }

/-- `translateItemAttributes` on one `ul li` (content.js lines 117–132):
skip if marked; the first compiled template whose regex matches the trimmed
text fires, the reconstruction replaces the text, the element is marked,
and the loop breaks. -/
def translateItemEl (cts : List CTempl) (st : ElState) : ElState :=
  if st.marked then st
  else
    match runTemplates cts (strTrim st.text) with
    | some newTxt => { st with text := newTxt, marked := true }
    | none => st

/-- `translateFixedText` on one `p`/`span`/`li` (content.js lines 137–156):
the filter drops elements with blank text, elements whose trimmed text is a
truthy exact-map key (precedence guard), and elements containing no
substring key; the body skips marked elements, applies every entry's
word-boundary substitution, and writes back and marks only if the text
changed. -/
def translateFixedTextEl (m f : Dict) (st : ElState) : ElState :=
  if strTrim st.text = "" then st
  else if (lookupTruthy m (strTrim st.text)).isSome then st
  else if !(f.any (fun p => strIncludes st.text p.1)) then st
  else if st.marked then st
  else if applyFixedEntries f st.text = st.text then st
  else { st with text := applyFixedEntries f st.text, marked := true }

/-- `translateTippyRootText` on one tooltip-layer element (content.js lines
161–175): skip if marked or blank; an exact-map hit appends
`"{translation} ({original})"`, else a fixed-map hit on the whole trimmed
text overwrites it; either way the element is marked. -/
def translateTippyEl (m f : Dict) (st : ElState) : ElState :=
  if st.marked then st
  else if strTrim st.text = "" then st
  else
    match lookupTruthy m (strTrim st.text) with
    | some tr => { st with text := tr ++ " (" ++ strTrim st.text ++ ")", marked := true }
    | none =>
      match lookupTruthy f (strTrim st.text) with
      | some v => { st with text := v, marked := true }
      | none => st

/-- `translateFallback` on one text node (part_000 lines 226–244): skip if
the node is in `translatedTextNodes`, its value is empty, or its trimmed
value is blank; on a truthy exact-map hit whose translation is not already
contained in the raw value, rewrite to the append form and mark the node. -/
def fallbackNode (m : Dict) (st : NodeState) : NodeState :=
  if st.nmarked then st
  else if st.value = "" then st
  else if strTrim st.value = "" then st
  else
    match lookupTruthy m (strTrim st.value) with
    | none => st
    | some tr =>
      if strIncludes st.value tr then st
      else { value := tr ++ " (" ++ strTrim st.value ++ ")", nmarked := true }

/-- The `while (node = walker.nextNode())` loop of `translateFallback`,
visiting every text node in document order. -/
def translateFallbackWalk (m : Dict) : List NodeState → List NodeState
  | [] => []
  | n :: ns => fallbackNode m n :: translateFallbackWalk m ns

/-! ## The element-strategy pipeline, per-element view

For the per-strategy properties, elements are independent: each element
strategy reads and writes a single element, and the selector scopes are
static, so running strategy 1 over all elements, then strategy 2 over all
elements, … produces on each element the left-to-right composition of its
applicable strategy steps. The order is the one of `translateAll`:
selector-scoped exact annotation (one `applyExactTranslation` call per
selector config the element is in), template annotation, fixed-text
annotation, tooltip annotation. This per-element view carries the
element's current text as a plain field; the aliased whole-pass model
below refines it with the element's actual text-node children, because
the fallback walk writes those nodes in place and element reads observe
the writes. -/

/-- The selector-config phase of `translateAll` as one element sees it:
one `applyExactTranslation` visit per selector config containing the
element, in config order. -/
def stageExact (m : Dict) (st : ElState) : ElState :=
  st.exactModes.foldl (fun s md => applyExactEl m md s) st

/-- `translateItemAttributes` as one element sees it: it visits exactly
the `ul li` elements. -/
def stageItem (cts : List CTempl) (st : ElState) : ElState :=
  if st.isLi then translateItemEl cts st else st

/-- `translateFixedText` as one element sees it: it visits exactly the
`p`, `span` and `li` elements. -/
def stageFixed (m f : Dict) (st : ElState) : ElState :=
  if st.isPSL then translateFixedTextEl m f st else st

/-- `translateTippyRootText` as one element sees it: it visits exactly
the `[data-tippy-root] span/div` elements. -/
def stageTippy (m f : Dict) (st : ElState) : ElState :=
  if st.isTippy then translateTippyEl m f st else st

/-- The composition of all element-level strategies of one pass on one
element, in `translateAll` order. -/
def passEl (m f : Dict) (cts : List CTempl) (st : ElState) : ElState :=
  stageTippy m f (stageFixed m f (stageItem cts (stageExact m st)))

/-! ## The full pass (`translateAll` + `translateFallback`), aliased model

The element strategies and the fallback walk share the DOM: an element's
`textContent` read concatenates the values of its text-node children, a
`textContent` write replaces those children with one fresh text node (whose
`translatedTextNodes` membership starts empty, the old nodes' marks dying
with them), and the fallback walk writes `nodeValue` of the surviving
nodes in place — a write the element's next `textContent` read observes
even when the element itself was never marked. The whole-pass model
therefore stores each element's text-node children, not a detached text
string. Elements are modelled with text-node children only (the nesting of
annotated elements inside each other is outside this model and is noted
where it matters). -/

/-- A DOM element as the whole pass sees it: its text-node children in
order (its `textContent` is their concatenation), its optional `alt`
attribute, its `translatedSet` membership, and its static selector
scopes. -/
structure ElDom where
  nodes : List NodeState
  alt : Option String
  marked : Bool
  exactModes : List Mode
  isLi : Bool
  isPSL : Bool
  isTippy : Bool
deriving DecidableEq

/-- `el.textContent` read: the concatenation of the text-node children's
values, in order. -/
def textOf (st : ElDom) : String :=
  String.join (st.nodes.map (fun n => n.value))

/-- `el.textContent = s` write: the children are replaced by a single
fresh text node holding `s`, which starts outside `translatedTextNodes`
(a write of the empty string leaves no child in the DOM; the model's
empty node is equivalent because every consumer skips empty values). -/
def setText (st : ElDom) (s : String) : ElDom :=
  { st with nodes := [⟨s, false⟩] }

/-- `applyExactTranslation` on one element of the aliased model (content.js
lines 80–94), reading and writing through the text nodes. -/
def applyExactDom (m : Dict) (md : Mode) (st : ElDom) : ElDom :=
  if st.marked then st
  else
    match md with
    | Mode.text =>
      if strTrim (textOf st) = "" then st
      else
        match lookupTruthy m (strTrim (textOf st)) with
        | none => st
        | some tr =>
          if strIncludes (strTrim (textOf st)) tr then st
          else { setText st (tr ++ " (" ++ strTrim (textOf st) ++ ")") with marked := true }
    | Mode.attr =>
      match st.alt with
      | none => st
      | some a =>
        if strTrim a = "" then st
        else
          match lookupTruthy m (strTrim a) with
          | none => st
          | some tr =>
            if strIncludes (strTrim a) tr then st
            else { st with alt := some (tr ++ " (" ++ strTrim a ++ ")"), marked := true }

/-- `translateItemAttributes` on one `ul li` of the aliased model
(content.js lines 117–132). -/
def translateItemDom (cts : List CTempl) (st : ElDom) : ElDom :=
  if st.marked then st
  else
    match runTemplates cts (strTrim (textOf st)) with
    | some newTxt => { setText st newTxt with marked := true }
    | none => st

/-- `translateFixedText` on one `p`/`span`/`li` of the aliased model
(content.js lines 137–156). -/
def translateFixedTextDom (m f : Dict) (st : ElDom) : ElDom :=
  if strTrim (textOf st) = "" then st
  else if (lookupTruthy m (strTrim (textOf st))).isSome then st
  else if !(f.any (fun p => strIncludes (textOf st) p.1)) then st
  else if st.marked then st
  else if applyFixedEntries f (textOf st) = textOf st then st
  else { setText st (applyFixedEntries f (textOf st)) with marked := true }

/-- `translateTippyRootText` on one tooltip-layer element of the aliased
model (content.js lines 161–175). -/
def translateTippyDom (m f : Dict) (st : ElDom) : ElDom :=
  if st.marked then st
  else if strTrim (textOf st) = "" then st
  else
    match lookupTruthy m (strTrim (textOf st)) with
    | some tr => { setText st (tr ++ " (" ++ strTrim (textOf st) ++ ")") with marked := true }
    | none =>
      match lookupTruthy f (strTrim (textOf st)) with
      | some v => { setText st v with marked := true }
      | none => st

/-- The selector-config phase in the aliased model. -/
def stageExactDom (m : Dict) (st : ElDom) : ElDom :=
  st.exactModes.foldl (fun s md => applyExactDom m md s) st

/-- `translateItemAttributes` scoped to `ul li` elements. -/
def stageItemDom (cts : List CTempl) (st : ElDom) : ElDom :=
  if st.isLi then translateItemDom cts st else st

/-- `translateFixedText` scoped to `p`/`span`/`li` elements. -/
def stageFixedDom (m f : Dict) (st : ElDom) : ElDom :=
  if st.isPSL then translateFixedTextDom m f st else st

/-- `translateTippyRootText` scoped to the tooltip layer. -/
def stageTippyDom (m f : Dict) (st : ElDom) : ElDom :=
  if st.isTippy then translateTippyDom m f st else st

/-- All element-level strategies of one pass on one element of the aliased
model, in `translateAll` order. -/
def passDom (m f : Dict) (cts : List CTempl) (st : ElDom) : ElDom :=
  stageTippyDom m f (stageFixedDom m f (stageItemDom cts (stageExactDom m st)))

/-- The fallback walk's visit to one element's text-node children: the
walk over all text nodes under `document.body` is the concatenation of the
elements' child lists, and both its decisions and its marks are per-node,
so it factors through the elements. -/
def fallbackDom (m : Dict) (st : ElDom) : ElDom :=
  { st with nodes := translateFallbackWalk m st.nodes }

/-- One full pass over the document in the aliased model: every element
strategy (content.js `translateAll`), then the fallback text-node walk
(part_000 lines 246–255). -/
def translateAllDom (m f : Dict) (cts : List CTempl) (d : List ElDom) : List ElDom :=
  (d.map (passDom m f cts)).map (fallbackDom m)

/-! ## Selector resolution (`multiQuery`) -/

/-- `multiQuery` (content.js lines 69–75) instrumented with the list of
selectors it actually evaluates: `for (sel of selectors)` queries each
selector in order and returns the first non-empty result set, evaluating
nothing further; if every selector misses it returns the empty collection
after evaluating them all. `q` is the live document's `querySelectorAll`. -/
def multiQueryT {σ α : Type} (q : σ → List α) : List σ → List α × List σ
  | [] => ([], [])
  | s :: ss =>
    if (q s).length ≠ 0 then (q s, [s])
    else ((multiQueryT q ss).1, s :: (multiQueryT q ss).2)

/-- The result component of `multiQuery`. -/
def multiQuery {σ α : Type} (q : σ → List α) (ss : List σ) : List α :=
  (multiQueryT q ss).1

/-- Scanner behind `balancedPat`: tracks group depth, whether the position
is inside a character class, and whether the previous character was an
escaping backslash. -/
def scanV : List Char → Nat → Bool → Bool → Bool
  | [], depth, inCls, esc => !esc && !inCls && (depth == 0)
  | c :: rest, depth, inCls, esc =>
    if esc then scanV rest depth inCls false
    else if c = '\\' then scanV rest depth inCls true
    else if inCls then scanV rest depth (decide (c ≠ ']')) false
    else if c = '[' then scanV rest depth true false
    else if c = '(' then scanV rest (depth + 1) false false
    else if c = ')' then
      match depth with
      | 0 => false
      | d + 1 => scanV rest d false false
    else scanV rest depth false false

/-- A necessary condition for JS `RegExp` acceptance: balanced groups,
terminated classes, no trailing backslash. `balancedPat pat = false`
implies the constructor throws on `pat`; `balancedPat pat = true` implies
nothing. -/
def balancedPat (pat : List Char) : Bool :=
  scanV pat 0 false false

/-- The characters of the pattern `\b en \b` that `translateFixedText`
builds for key `en`. -/
def patOfL (en : String) : List Char :=
  '\\' :: 'b' :: (en.toList ++ ['\\', 'b'])

/-- The entry loop of `translateFixedText` with the `RegExp` constructor's
possible `SyntaxError` made explicit; `V` is the constructor's acceptance
oracle on the spliced pattern, consulted for every entry in order before
that entry's substitution (the constructor runs even for keys the text
does not contain). -/
def applyFixedEntriesE (V : List Char → Bool) : Dict → String → Except Unit String
  | [], txt => Except.ok txt
  | p :: rest, txt =>
    if V (patOfL p.1) then applyFixedEntriesE V rest (wbReplace p.1 p.2 txt)
    else Except.error ()

/-- `translateFixedText` on one element with exceptions explicit. -/
def translateFixedTextElE (V : List Char → Bool) (m f : Dict) (st : ElState) :
    Except Unit ElState :=
  if strTrim st.text = "" then Except.ok st
  else if (lookupTruthy m (strTrim st.text)).isSome then Except.ok st
  else if !(f.any (fun p => strIncludes st.text p.1)) then Except.ok st
  else if st.marked then Except.ok st
  else
    match applyFixedEntriesE V f st.text with
    | Except.error e => Except.error e
    | Except.ok txt2 =>
      if txt2 = st.text then Except.ok st
      else Except.ok { st with text := txt2, marked := true }

/-- `translateFixedText` with exceptions, as one element sees it. -/
def stageFixedE (V : List Char → Bool) (m f : Dict) (st : ElState) :
    Except Unit ElState :=
  if st.isPSL then translateFixedTextElE V m f st else Except.ok st

/-- One element's slice of the pass with exceptions explicit; only the
fixed-text strategy can throw. -/
def passElE (V : List Char → Bool) (m f : Dict) (cts : List CTempl) (st : ElState) :
    Except Unit ElState :=
  match stageFixedE V m f (stageItem cts (stageExact m st)) with
  | Except.error e => Except.error e
  | Except.ok s3 => Except.ok (stageTippy m f s3)

/-- The element phase of `translateAll` with exceptions explicit: an
uncaught throw on any element aborts the whole pass. -/
def translateAllE (V : List Char → Bool) (m f : Dict) (cts : List CTempl) :
    List ElState → Except Unit (List ElState)
  | [] => Except.ok []
  | st :: sts =>
    match passElE V m f cts st with
    | Except.error e => Except.error e
    | Except.ok s2 =>
      match translateAllE V m f cts sts with
      | Except.error e => Except.error e
      | Except.ok rest => Except.ok (s2 :: rest)

/-- Amended description of a zero-placeholder matcher, written from the
spec side for comparison: the compiled pattern `^([+\-]?)skeleton$` with
the `i` flag accepts exactly an optional leading sign followed by a
case-variant of the skeleton. -/
def ciEqL : List Char → List Char → Bool
  | [], [] => true
  | a :: as2, b :: bs => lcEq a b && ciEqL as2 bs
  | _, _ => false

/-- The set of strings the amended claim C9 says a zero-placeholder
matcher accepts: the skeleton up to letter case, optionally preceded by a
single `+` or `-`. -/
def acceptsLiteralSigned (tpl s : String) : Bool :=
  ciEqL tpl.toList s.toList ||
  (match s.toList with
   | [] => false
   | c :: rest => (c == '+' || c == '-') && ciEqL tpl.toList rest)

/-! ## Mark discipline

Every strategy step first consults the mark set and skips marked targets,
and every branch that changes the target also marks it. These two facts
drive the idempotence of the whole pass. -/

theorem applyExactEl_skip (m : Dict) (md : Mode) (st : ElState)
    (h : st.marked = true) : applyExactEl m md st = st := by
  simp [applyExactEl, h]

theorem applyExactEl_cases (m : Dict) (md : Mode) (st : ElState) :
    applyExactEl m md st = st ∨ (applyExactEl m md st).marked = true := by
  unfold applyExactEl
  repeat' split
  all_goals first | exact Or.inl rfl | exact Or.inr rfl

theorem translateItemEl_skip (cts : List CTempl) (st : ElState)
    (h : st.marked = true) : translateItemEl cts st = st := by
  simp [translateItemEl, h]

theorem translateItemEl_cases (cts : List CTempl) (st : ElState) :
    translateItemEl cts st = st ∨ (translateItemEl cts st).marked = true := by
  unfold translateItemEl
  repeat' split
  all_goals first | exact Or.inl rfl | exact Or.inr rfl

theorem translateFixedTextEl_skip (m f : Dict) (st : ElState)
    (h : st.marked = true) : translateFixedTextEl m f st = st := by
  simp [translateFixedTextEl, h]

theorem translateFixedTextEl_cases (m f : Dict) (st : ElState) :
    translateFixedTextEl m f st = st ∨ (translateFixedTextEl m f st).marked = true := by
  unfold translateFixedTextEl
  repeat' split
  all_goals first | exact Or.inl rfl | exact Or.inr rfl

theorem translateTippyEl_skip (m f : Dict) (st : ElState)
    (h : st.marked = true) : translateTippyEl m f st = st := by
  simp [translateTippyEl, h]

theorem translateTippyEl_cases (m f : Dict) (st : ElState) :
    translateTippyEl m f st = st ∨ (translateTippyEl m f st).marked = true := by
  unfold translateTippyEl
  repeat' split
  all_goals first | exact Or.inl rfl | exact Or.inr rfl

theorem fallbackNode_skip (m : Dict) (st : NodeState)
    (h : st.nmarked = true) : fallbackNode m st = st := by
  simp [fallbackNode, h]

theorem fallbackNode_cases (m : Dict) (st : NodeState) :
    fallbackNode m st = st ∨ (fallbackNode m st).nmarked = true := by
  unfold fallbackNode
  repeat' split
  all_goals first | exact Or.inl rfl | exact Or.inr rfl

theorem foldlExact_skip (m : Dict) (mds : List Mode) (st : ElState)
    (h : st.marked = true) :
    mds.foldl (fun s md => applyExactEl m md s) st = st := by
  induction mds with
  | nil => rfl
  | cons md mds ih => simp [applyExactEl_skip m md st h, ih]

theorem foldlExact_cases (m : Dict) (mds : List Mode) (st : ElState) :
    mds.foldl (fun s md => applyExactEl m md s) st = st
      ∨ (mds.foldl (fun s md => applyExactEl m md s) st).marked = true := by
  induction mds generalizing st with
  | nil => exact Or.inl rfl
  | cons md mds ih =>
    rw [List.foldl_cons]
    rcases ih (applyExactEl m md st) with h1 | h1
    · rw [h1]
      exact applyExactEl_cases m md st
    · exact Or.inr h1

/-- Chaining helper: feeding a stage that skips marked elements and marks
whatever it changes with the output of earlier such stages. -/
theorem chain_cases {st s : ElState} (g : ElState → ElState)
    (hskip : ∀ t, t.marked = true → g t = t)
    (hcases : ∀ t, g t = t ∨ (g t).marked = true)
    (hs : s = st ∨ s.marked = true) :
    g s = st ∨ (g s).marked = true := by
  rcases hs with rfl | hm
  · exact hcases _
  · rw [hskip s hm]
    exact Or.inr hm

theorem stageExact_skip (m : Dict) (st : ElState)
    (h : st.marked = true) : stageExact m st = st :=
  foldlExact_skip m st.exactModes st h

theorem stageExact_cases (m : Dict) (st : ElState) :
    stageExact m st = st ∨ (stageExact m st).marked = true :=
  foldlExact_cases m st.exactModes st

theorem stageItem_skip (cts : List CTempl) (st : ElState)
    (h : st.marked = true) : stageItem cts st = st := by
  unfold stageItem
  split
  · exact translateItemEl_skip cts st h
  · rfl

theorem stageItem_cases (cts : List CTempl) (st : ElState) :
    stageItem cts st = st ∨ (stageItem cts st).marked = true := by
  unfold stageItem
  split
  · exact translateItemEl_cases cts st
  · exact Or.inl rfl

theorem stageFixed_skip (m f : Dict) (st : ElState)
    (h : st.marked = true) : stageFixed m f st = st := by
  unfold stageFixed
  split
  · exact translateFixedTextEl_skip m f st h
  · rfl

theorem stageFixed_cases (m f : Dict) (st : ElState) :
    stageFixed m f st = st ∨ (stageFixed m f st).marked = true := by
  unfold stageFixed
  split
  · exact translateFixedTextEl_cases m f st
  · exact Or.inl rfl

theorem stageTippy_skip (m f : Dict) (st : ElState)
    (h : st.marked = true) : stageTippy m f st = st := by
  unfold stageTippy
  split
  · exact translateTippyEl_skip m f st h
  · rfl

theorem stageTippy_cases (m f : Dict) (st : ElState) :
    stageTippy m f st = st ∨ (stageTippy m f st).marked = true := by
  unfold stageTippy
  split
  · exact translateTippyEl_cases m f st
  · exact Or.inl rfl

theorem passEl_skip (m f : Dict) (cts : List CTempl) (st : ElState)
    (h : st.marked = true) : passEl m f cts st = st := by
  unfold passEl
  rw [stageExact_skip m st h, stageItem_skip cts st h, stageFixed_skip m f st h,
    stageTippy_skip m f st h]

theorem passEl_cases (m f : Dict) (cts : List CTempl) (st : ElState) :
    passEl m f cts st = st ∨ (passEl m f cts st).marked = true := by
  unfold passEl
  apply chain_cases (stageTippy m f) (stageTippy_skip m f) (stageTippy_cases m f)
  apply chain_cases (stageFixed m f) (stageFixed_skip m f) (stageFixed_cases m f)
  apply chain_cases (stageItem cts) (stageItem_skip cts) (stageItem_cases cts)
  exact stageExact_cases m st

theorem passEl_idem (m f : Dict) (cts : List CTempl) (st : ElState) :
    passEl m f cts (passEl m f cts st) = passEl m f cts st := by
  rcases passEl_cases m f cts st with h | h
  · rw [h]
    exact h
  · exact passEl_skip m f cts _ h

theorem fallbackNode_idem (m : Dict) (st : NodeState) :
    fallbackNode m (fallbackNode m st) = fallbackNode m st := by
  rcases fallbackNode_cases m st with h | h
  · rw [h]
    exact h
  · exact fallbackNode_skip m _ h

theorem map_idem {α : Type} (P : α → α) (hP : ∀ x, P (P x) = P x) :
    ∀ l : List α, (l.map P).map P = l.map P := by
  intro l
  induction l with
  | nil => rfl
  | cons x xs ih => simp [hP x, ih]

theorem walk_eq_map (m : Dict) (ns : List NodeState) :
    translateFallbackWalk m ns = ns.map (fallbackNode m) := by
  induction ns with
  | nil => rfl
  | cons n ns ih => simp [translateFallbackWalk, ih]

/-! ## C1: the pass is not idempotent; marking is one-shot

Skip lemmas for the aliased element strategies, mirroring the per-element
view: every strategy consults `translatedSet` before reading any text, so
a marked element is returned untouched regardless of what its text nodes
now hold. -/

theorem applyExactDom_skip (m : Dict) (md : Mode) (st : ElDom)
    (h : st.marked = true) : applyExactDom m md st = st := by
  simp [applyExactDom, h]

theorem translateItemDom_skip (cts : List CTempl) (st : ElDom)
    (h : st.marked = true) : translateItemDom cts st = st := by
  simp [translateItemDom, h]

theorem translateFixedTextDom_skip (m f : Dict) (st : ElDom)
    (h : st.marked = true) : translateFixedTextDom m f st = st := by
  simp [translateFixedTextDom, h]

theorem translateTippyDom_skip (m f : Dict) (st : ElDom)
    (h : st.marked = true) : translateTippyDom m f st = st := by
  simp [translateTippyDom, h]

theorem foldlExactDom_skip (m : Dict) (mds : List Mode) (st : ElDom)
    (h : st.marked = true) :
    mds.foldl (fun s md => applyExactDom m md s) st = st := by
  induction mds with
  | nil => rfl
  | cons md mds ih => simp [applyExactDom_skip m md st h, ih]

theorem passDom_skip (m f : Dict) (cts : List CTempl) (st : ElDom)
    (h : st.marked = true) : passDom m f cts st = st := by
  unfold passDom stageExactDom stageItemDom stageFixedDom stageTippyDom
  rw [foldlExactDom_skip m st.exactModes st h]
  have h2 : (if st.isLi then translateItemDom cts st else st) = st := by
    split
    · exact translateItemDom_skip cts st h
    · rfl
  rw [h2]
  have h3 : (if st.isPSL then translateFixedTextDom m f st else st) = st := by
    split
    · exact translateFixedTextDom_skip m f st h
    · rfl
  rw [h3]
  split
  · exact translateTippyDom_skip m f st h
  · rfl

/-- C1 counterexample: the claim fails as stated. With
`exactMap = {"Fire Ball": "火球"}` and `fixedTextMap = {"Fire": "火"}`, a
`p` element holding the single text node `"Fire Ball"` (matched by no
selector config) comes out of one full pass as `"火球 (Fire Ball)"` — the
fixed-text filter excluded the element because its trimmed text is an
exact key, leaving it unmarked, and the fallback walk rewrote and marked
only the text node — but out of two passes as `"火球 (火 Ball)"`: the
second pass's fixed-text strategy sees the element still unmarked with
aggregated text that now merely *contains* `"Fire"`, and substitutes
inside the annotation. Running the pass twice does not produce the same
final text as running it once. -/
theorem translateAll_not_idempotent :
    translateAllDom [("Fire Ball", "火球")] [("Fire", "火")] []
        [⟨[⟨"Fire Ball", false⟩], none, false, [], false, true, false⟩]
      = [⟨[⟨"火球 (Fire Ball)", true⟩], none, false, [], false, true, false⟩]
    ∧ translateAllDom [("Fire Ball", "火球")] [("Fire", "火")] []
        (translateAllDom [("Fire Ball", "火球")] [("Fire", "火")] []
          [⟨[⟨"Fire Ball", false⟩], none, false, [], false, true, false⟩])
      = [⟨[⟨"火球 (火 Ball)", false⟩], none, true, [], false, true, false⟩]
    ∧ translateAllDom [("Fire Ball", "火球")] [("Fire", "火")] []
        (translateAllDom [("Fire Ball", "火球")] [("Fire", "火")] []
          [⟨[⟨"Fire Ball", false⟩], none, false, [], false, true, false⟩])
      ≠ translateAllDom [("Fire Ball", "火球")] [("Fire", "火")] []
          [⟨[⟨"Fire Ball", false⟩], none, false, [], false, true, false⟩] :=
  ⟨by decide, by decide, by decide⟩

/-- C1 (amended): what the mark discipline does guarantee. An element
already in the element mark set is left completely untouched by the whole
element-strategy pass — every strategy consults the mark set before
reading or writing, so annotation is one-shot per element and no
`"X (Y) (Y)"` artifact is appended to a marked element — and the fallback
text-node walk run twice equals the walk run once (a node it rewrites it
marks, and marked or unchanged nodes are left alone). Running the full
composite pass twice, however, is not equivalent to running it once: a
text-node rewrite by the fallback changes the aggregated text of a
still-unmarked ancestor element, which the next pass's element strategies
may rewrite again (see the counterexample). -/
theorem translateAll_mark_oneshot (m f : Dict) (cts : List CTempl) :
    (∀ st : ElDom, st.marked = true → passDom m f cts st = st)
    ∧ ∀ ns : List NodeState,
        translateFallbackWalk m (translateFallbackWalk m ns)
          = translateFallbackWalk m ns := by
  refine ⟨passDom_skip m f cts, fun ns => ?_⟩
  rw [walk_eq_map, walk_eq_map]
  exact map_idem _ (fallbackNode_idem m) ns

theorem translateAll_mark_oneshot_witness :
    ((⟨[⟨"Fire Ball", false⟩], none, true, [], false, true, false⟩ : ElDom).marked = true)
    ∧ passDom [("Fire Ball", "火球")] [("Fire", "火")] []
        ⟨[⟨"Fire Ball", false⟩], none, true, [], false, true, false⟩
      = ⟨[⟨"Fire Ball", false⟩], none, true, [], false, true, false⟩
    ∧ translateFallbackWalk [("Fire Ball", "火球")]
        (translateFallbackWalk [("Fire Ball", "火球")] [⟨"Fire Ball", false⟩])
      = translateFallbackWalk [("Fire Ball", "火球")] [⟨"Fire Ball", false⟩] := by
  refine ⟨rfl, ?_, ?_⟩
  · exact (translateAll_mark_oneshot [("Fire Ball", "火球")] [("Fire", "火")] []).1
      ⟨[⟨"Fire Ball", false⟩], none, true, [], false, true, false⟩ rfl
  · exact (translateAll_mark_oneshot [("Fire Ball", "火球")] [("Fire", "火")] []).2
      [⟨"Fire Ball", false⟩]

/-- C2: for an element whose full trimmed text is simultaneously a truthy
key of the exact map and contains a substring-map key, the fixed-text
(substring) strategy leaves the element untouched: its filter excludes any
element whose trimmed text is an exact-map key, so exact-phrase annotation
takes precedence for that pass. -/
theorem translateFixedText_exact_precedence (m f : Dict) (st : ElState)
    (h1 : (lookupTruthy m (strTrim st.text)).isSome = true)
    (h2 : f.any (fun p => strIncludes st.text p.1) = true) :
    translateFixedTextEl m f st = st := by
  simp [translateFixedTextEl, h1]

theorem translateFixedText_exact_precedence_witness :
    (lookupTruthy [("Str 10", "甲")] (strTrim "Str 10")).isSome = true
    ∧ (([("Str", "力量")] : Dict).any
        (fun p => strIncludes "Str 10" p.1) = true)
    ∧ translateFixedTextEl [("Str 10", "甲")] [("Str", "力量")]
        ⟨"Str 10", none, false, [], false, true, false⟩
      = ⟨"Str 10", none, false, [], false, true, false⟩ :=
  ⟨by decide, by decide,
    translateFixedText_exact_precedence _ _ _ (by decide) (by decide)⟩

theorem walkFallback_get (m : Dict) (ns : List NodeState) (i : Nat) :
    (translateFallbackWalk m ns).get? i = (ns.get? i).map (fallbackNode m) := by
  induction ns generalizing i with
  | nil => cases i <;> rfl
  | cons n ns ih =>
    cases i with
    | zero => rfl
    | succ j => exact ih j

/-- C3: a text node already in the text-node mark set when the exhaustive
fallback walk runs is left completely unchanged by the walk even though the
walk visits it (`translatedTextNodes.has(node)` short-circuits the loop
body), so the fallback never rewrites content already annotated and marked
at text-node granularity during the pass. -/
theorem translateFallback_skips_marked (m : Dict) (ns : List NodeState) (i : Nat)
    (st : NodeState) (h1 : ns.get? i = some st) (h2 : st.nmarked = true) :
    (translateFallbackWalk m ns).get? i = some st := by
  rw [walkFallback_get, h1, Option.map_some', fallbackNode_skip m st h2]

theorem translateFallback_skips_marked_witness :
    ([⟨"Fire", true⟩] : List NodeState).get? 0 = some ⟨"Fire", true⟩
    ∧ (translateFallbackWalk [("Fire", "火")] [⟨"Fire", true⟩]).get? 0
      = some ⟨"Fire", true⟩ :=
  ⟨rfl, translateFallback_skips_marked [("Fire", "火")] [⟨"Fire", true⟩] 0
    ⟨"Fire", true⟩ rfl rfl⟩

/-- C4: the template round trips of the spec. With the template entry
`"+# to Life" → "+# 生命"`, an unmarked list item whose text is
`"+25 to Life"` is rewritten to `"+25 生命"` (the backtracking sign group
captures nothing, the literal `+` of the skeleton matches, and the captured
`25` is substituted positionally); with `"# to Life" → "# 生命"`, the item
`"30 to Life"` becomes `"30 生命"`. -/
theorem template_roundtrip_life :
    translateItemEl (compileTemplates [("+# to Life", "+# 生命")])
        ⟨"+25 to Life", none, false, [], true, false, false⟩
      = ⟨"+25 生命", none, true, [], true, false, false⟩
    ∧ translateItemEl (compileTemplates [("# to Life", "# 生命")])
        ⟨"30 to Life", none, false, [], true, false, false⟩
      = ⟨"30 生命", none, true, [], true, false, false⟩ :=
  ⟨by decide, by decide⟩

/-- C5: word-boundary safety of the substring strategy. With the substring
entry `{"Str": "力量"}`, an element whose text is `"Strength 10"` is never
altered (the key occurs only as a prefix of the longer word, so the
`\bStr\b` pattern finds no match and the element is neither rewritten nor
marked), in either mark state; an unmarked element whose text is
`"Str 10"` is rewritten to `"力量 10"` and marked. -/
theorem fixedText_word_boundary :
    translateFixedTextEl [] [("Str", "力量")]
        ⟨"Strength 10", none, false, [], false, true, false⟩
      = ⟨"Strength 10", none, false, [], false, true, false⟩
    ∧ translateFixedTextEl [] [("Str", "力量")]
        ⟨"Strength 10", none, true, [], false, true, false⟩
      = ⟨"Strength 10", none, true, [], false, true, false⟩
    ∧ translateFixedTextEl [] [("Str", "力量")]
        ⟨"Str 10", none, false, [], false, true, false⟩
      = ⟨"力量 10", none, true, [], false, true, false⟩ :=
  ⟨by decide, by decide, by decide⟩

/-- C6: `multiQuery` evaluates the selector groups in order and returns
the match set of the first group yielding at least one element, and its
evaluation trace is exactly the failing prefix followed by that group —
each selector is queried at most once and nothing after the first hit is
ever queried; when every group misses it returns the empty collection
(after querying each group once). -/
theorem multiQuery_first_nonempty {σ α : Type} (q : σ → List α) (pre : List σ)
    (s : σ) (post : List σ) (hpre : ∀ x ∈ pre, q x = []) :
    (q s ≠ [] → multiQueryT q (pre ++ s :: post) = (q s, pre ++ [s]))
    ∧ multiQueryT q pre = ([], pre) := by
  induction pre with
  | nil =>
    refine ⟨fun hs => ?_, rfl⟩
    have hlen : (q s).length ≠ 0 := fun hl => hs (List.length_eq_zero.mp hl)
    simp [multiQueryT, hlen]
  | cons x xs ih =>
    have hx : q x = [] := hpre x (List.mem_cons_self x xs)
    have hxs : ∀ y ∈ xs, q y = [] := fun y hy => hpre y (List.mem_cons_of_mem x hy)
    refine ⟨fun hs => ?_, ?_⟩
    · simp [multiQueryT, hx, (ih hxs).1 hs]
    · simp [multiQueryT, hx, (ih hxs).2]

theorem multiQuery_first_nonempty_witness :
    ((fun n => if n = 1 then [10, 20, 30] else []) : Nat → List Nat) 0 = []
    ∧ multiQueryT (fun n => if n = 1 then [10, 20, 30] else ([] : List Nat)) [0, 1, 2]
      = ([10, 20, 30], [0, 1])
    ∧ multiQueryT (fun n => if n = 1 then [10, 20, 30] else ([] : List Nat)) [0]
      = ([], [0]) := by
  refine ⟨by decide, ?_, ?_⟩
  · exact (multiQuery_first_nonempty (fun n => if n = 1 then [10, 20, 30] else [])
      [0] 1 [2] (by decide)).1 (by decide)
  · exact (multiQuery_first_nonempty (fun n => if n = 1 then [10, 20, 30] else [])
      [0] 1 [2] (by decide)).2

/-- C7: in `translateItemAttributes`, for an unmarked list item whose
trimmed text is matched by some compiled template, only the first matching
matcher in dictionary declaration order fires: its reconstruction (captured
sign re-prepended, captures substituted positionally) replaces the item
text and the item is marked, and the result does not depend on the
templates after it (`break` ends the loop), so at most one matcher fires
per item. -/
theorem templates_first_match_wins (pre : List CTempl) (ct : CTempl)
    (post : List CTempl) (sign : String) (caps : List String) (st : ElState)
    (h1 : st.marked = false)
    (h2 : ∀ c ∈ pre, templMatch c.toks (strTrim st.text) = none)
    (h3 : templMatch ct.toks (strTrim st.text) = some (sign, caps)) :
    translateItemEl (pre ++ ct :: post) st
      = { st with text := sign ++ reconstruct ct.translation caps, marked := true } := by
  have hrun : ∀ (pr : List CTempl),
      (∀ c ∈ pr, templMatch c.toks (strTrim st.text) = none) →
      runTemplates (pr ++ ct :: post) (strTrim st.text)
        = some (sign ++ reconstruct ct.translation caps) := by
    intro pr
    induction pr with
    | nil => intro _; simp [runTemplates, h3]
    | cons c cs ih =>
      intro hall
      have hc := hall c (List.mem_cons_self c cs)
      rw [List.cons_append]
      simp only [runTemplates, hc]
      exact ih (fun d hd => hall d (List.mem_cons_of_mem c hd))
  simp [translateItemEl, h1, hrun pre h2]

theorem templates_first_match_wins_witness :
    (∀ c ∈ [compileOne "+# Mana" "+# 魔力"],
      templMatch c.toks (strTrim "25 to Life") = none)
    ∧ templMatch (compileOne "# to Life" "# 甲").toks (strTrim "25 to Life")
      = some ("", ["25"])
    ∧ translateItemEl [compileOne "+# Mana" "+# 魔力", compileOne "# to Life" "# 甲",
        compileOne "# to Life" "# 乙"]
        ⟨"25 to Life", none, false, [], true, false, false⟩
      = { (⟨"25 to Life", none, false, [], true, false, false⟩ : ElState) with
          text := "" ++ reconstruct "# 甲" ["25"], marked := true } := by
  refine ⟨by decide, by decide, ?_⟩
  exact templates_first_match_wins [compileOne "+# Mana" "+# 魔力"]
    (compileOne "# to Life" "# 甲") [compileOne "# to Life" "# 乙"] "" ["25"]
    ⟨"25 to Life", none, false, [], true, false, false⟩ rfl (by decide) (by decide)

/-! ## C8: exception behaviour

The following chain isolates the pass's only throw source: whichever
acceptance oracle `V` the constructor implements, if it accepts every
key's spliced pattern the exception-explicit pass returns exactly the pure
pass. -/

theorem applyFixedEntriesE_ok (V : List Char → Bool) :
    ∀ (f : Dict), (∀ p ∈ f, V (patOfL p.1) = true) →
      ∀ txt, applyFixedEntriesE V f txt = Except.ok (applyFixedEntries f txt) := by
  intro f
  induction f with
  | nil => intro _ txt; rfl
  | cons p ps ih =>
    intro hf txt
    have hp := hf p (List.mem_cons_self p ps)
    simp [applyFixedEntriesE, hp, applyFixedEntries,
      ih (fun d hd => hf d (List.mem_cons_of_mem p hd)) (wbReplace p.1 p.2 txt)]

theorem translateFixedTextElE_ok (V : List Char → Bool) (m f : Dict) (st : ElState)
    (hf : ∀ p ∈ f, V (patOfL p.1) = true) :
    translateFixedTextElE V m f st = Except.ok (translateFixedTextEl m f st) := by
  unfold translateFixedTextElE translateFixedTextEl
  rw [applyFixedEntriesE_ok V f hf st.text]
  repeat' split
  all_goals first | rfl | simp_all

theorem stageFixedE_ok (V : List Char → Bool) (m f : Dict) (st : ElState)
    (hf : ∀ p ∈ f, V (patOfL p.1) = true) :
    stageFixedE V m f st = Except.ok (stageFixed m f st) := by
  unfold stageFixedE stageFixed
  split
  · exact translateFixedTextElE_ok V m f st hf
  · rfl

theorem passElE_ok (V : List Char → Bool) (m f : Dict) (cts : List CTempl) (st : ElState)
    (hf : ∀ p ∈ f, V (patOfL p.1) = true) :
    passElE V m f cts st = Except.ok (passEl m f cts st) := by
  unfold passElE passEl
  rw [stageFixedE_ok V m f _ hf]

theorem translateAllE_ok (V : List Char → Bool) (m f : Dict) (cts : List CTempl)
    (hf : ∀ p ∈ f, V (patOfL p.1) = true) :
    ∀ els, translateAllE V m f cts els = Except.ok (els.map (passEl m f cts)) := by
  intro els
  induction els with
  | nil => rfl
  | cons st sts ih =>
    simp [translateAllE, passElE_ok V m f cts st hf, ih]

/-- C8: the code, evaluated at the failing input. With the substring entry
`{"(": "x"}` and one unmarked `p` element whose text is `"("` (so it
passes the `includes` filter), `translateFixedText` reaches
`new RegExp('\b(\b', 'g')`; `\b(\b` has an unterminated group, which
`balancedPat` refutes for the same reason the JS constructor throws its
`SyntaxError` there, and the pass aborts with the uncaught error instead
of completing — dictionary content does halt the pass, contrary to the
claim and to the spec's no-fatal-error design (which the part_001 variant
implements by escaping keys before splicing). -/
theorem translateAll_throws_on_metachar_key :
    translateAllE balancedPat [] [("(", "x")] []
      [⟨"(", none, false, [], false, true, false⟩] = Except.error () := rfl

/-! ## C9: zero-placeholder templates -/

theorem mk_toList (s : String) : String.mk s.toList = s := rfl

theorem toksAux_no_hash (l : List Char) :
    ∀ cur, (∀ c ∈ l, c ≠ '#') →
      toksAux cur l = [Tok.lit (String.mk (cur.reverse ++ l))] := by
  induction l with
  | nil => intro cur _; simp [toksAux]
  | cons c cs ih =>
    intro cur h
    have hc : c ≠ '#' := h c (List.mem_cons_self c cs)
    rw [toksAux, if_neg hc, ih (c :: cur) (fun d hd => h d (List.mem_cons_of_mem c hd))]
    simp

theorem stripCI_empty_iff (p : List Char) :
    ∀ cs, stripPrefixCI p cs = some [] ↔ ciEqL p cs = true := by
  induction p with
  | nil =>
    intro cs
    cases cs <;> simp [stripPrefixCI, ciEqL]
  | cons a as ih =>
    intro cs
    cases cs with
    | nil => simp [stripPrefixCI, ciEqL]
    | cons b bs =>
      by_cases hab : lcEq a b = true
      · simp [stripPrefixCI, ciEqL, hab, ih bs]
      · simp [stripPrefixCI, ciEqL, hab]

theorem matchToks_single_lit (L : String) (cs : List Char) :
    (matchToks [Tok.lit L] cs).isSome = ciEqL L.toList cs := by
  show (matchToksF 2 [Tok.lit L] cs).isSome = ciEqL L.toList cs
  rw [matchToksF]
  cases hstrip : stripPrefixCI L.toList cs with
  | none =>
    cases hci : ciEqL L.toList cs
    · rfl
    · exfalso
      have h2 := (stripCI_empty_iff L.toList cs).mpr hci
      rw [hstrip] at h2
      exact Option.noConfusion h2
  | some rest =>
    cases rest with
    | nil =>
      have hci := (stripCI_empty_iff L.toList cs).mp hstrip
      rw [hci]
      rfl
    | cons r rs =>
      cases hci : ciEqL L.toList cs
      · simp [matchToksF]
      · exfalso
        have h2 := (stripCI_empty_iff L.toList cs).mpr hci
        rw [hstrip] at h2
        simp at h2

/-- C9 counterexample: the claim fails as stated. The compiled pattern for
a zero-placeholder template is `^([+\-]?)skeleton$` with the `i` flag, so
the matcher for the template `"Life"` also accepts the input `"+Life"`,
which differs from the literal skeleton — it does not accept "exactly the
literal skeleton text and no other input". -/
theorem zero_placeholder_accepts_signed :
    templMatchB (compileOne "Life" "命") "+Life" = true
    ∧ ("+Life" : String) ≠ "Life" :=
  ⟨by decide, by decide⟩

/-- C9 (amended): a template with zero placeholder markers compiles to a
matcher that accepts exactly the strings consisting of an optional single
leading `+` or `-` followed by the literal skeleton up to letter case — an
exact match only modulo the pattern's optional sign group and
case-insensitivity flag. -/
theorem zero_placeholder_exact_up_to_sign (tpl trans s : String)
    (h : ∀ c ∈ tpl.toList, c ≠ '#') :
    templMatchB (compileOne tpl trans) s = acceptsLiteralSigned tpl s := by
  have htoks : (compileOne tpl trans).toks = [Tok.lit tpl] := by
    show toksOfTemplate tpl = [Tok.lit tpl]
    unfold toksOfTemplate
    rw [toksAux_no_hash tpl.toList [] h]
    simp [mk_toList]
  unfold templMatchB acceptsLiteralSigned
  rw [htoks]
  unfold templMatch
  cases hcs : s.toList with
  | nil =>
    simp [matchToks_single_lit]
  | cons c rest =>
    by_cases hsign : (c == '+' || c == '-') = true
    · cases hm : matchToks [Tok.lit tpl] rest with
      | some caps =>
        have hci := matchToks_single_lit tpl rest
        rw [hm] at hci
        simp at hci
        simp [hsign, hm, hci]
      | none =>
        have hci := matchToks_single_lit tpl rest
        rw [hm] at hci
        simp at hci
        have hfull := matchToks_single_lit tpl (c :: rest)
        simp [hsign, hm, hci, hfull]
    · have hfull := matchToks_single_lit tpl (c :: rest)
      simp [hsign, hfull]

theorem zero_placeholder_witness :
    (∀ c ∈ ("Life" : String).toList, c ≠ '#')
    ∧ templMatchB (compileOne "Life" "命") "+Life"
      = acceptsLiteralSigned "Life" "+Life" :=
  ⟨by decide, zero_placeholder_exact_up_to_sign "Life" "命" "+Life" (by decide)⟩

end Poe2Translator
